import Mathlib

/-!
Verification development for the sketchloop/translator repository.

The Python sources (src/engine.py, src/tokenizer.py, src/languages/quenya.py,
src/languages/sindarin.py) are shallowly embedded below.  Python strings are
modelled through their character lists, Python dicts through association
lists with insertion-order updates, and `None`-able attributes through
`Option`.  The string helpers prefixed with `py` mirror the exact Python
primitive used by the source (`str.lower`, `str.replace`, `str.endswith`,
slicing), restricted to ASCII case mapping, which covers every string the
code manipulates.
-/

/-- ASCII letter test, the `A-Za-z` class of the tokenizer regex. -/
def isAsciiLetter (c : Char) : Bool :=
  (decide ('A' ≤ c) && decide (c ≤ 'Z')) || (decide ('a' ≤ c) && decide (c ≤ 'z'))

/-- Characters matched by `[A-Za-z']` in the tokenizer regex (39 is the apostrophe). -/
def isWordChar (c : Char) : Bool :=
  isAsciiLetter c || c.toNat == 39

/-- Python `\s` for the ASCII range: space, tab, newline, vertical tab, form feed, carriage return. -/
def pyIsSpace (c : Char) : Bool :=
  [' ', '\t', '\n', '\x0B', '\x0C', '\r'].contains c

/-- ASCII lower-casing of one character, as `str.lower` does on ASCII input. -/
def pyCharLower (c : Char) : Char :=
  if decide ('A' ≤ c) && decide (c ≤ 'Z') then Char.ofNat (c.toNat + 32) else c

/-- ASCII upper-casing of one character, as `str.upper` does on ASCII input. -/
def pyCharUpper (c : Char) : Char :=
  if decide ('a' ≤ c) && decide (c ≤ 'z') then Char.ofNat (c.toNat - 32) else c

/-- `str.lower` over the whole string. -/
def pyLower (s : String) : String := ⟨s.data.map pyCharLower⟩

/-- `l₁` is a prefix of `l₂` (Boolean, structural). -/
def isPrefixList : List Char → List Char → Bool
  | [], _ => true
  | _ :: _, [] => false
  | a :: as, b :: bs => a == b && isPrefixList as bs

/-- `str.endswith`: `suf` is a suffix of `s`. -/
def pyEndsWith (s suf : String) : Bool :=
  isPrefixList suf.data.reverse s.data.reverse

/-- `str.startswith`: `pre` is a prefix of `s`. -/
def pyStartsWith (s pre : String) : Bool :=
  isPrefixList pre.data s.data

/-- Python slicing `s[n:]`. -/
def pyDrop (s : String) (n : Nat) : String := ⟨s.data.drop n⟩

/-- Python slicing `s[:-n]` for `0 < n ≤ len s` (and `""` when `n ≥ len s`). -/
def pyDropRight (s : String) (n : Nat) : String := ⟨s.data.take (s.data.length - n)⟩

/-- Core loop of `str.replace(pat, "")`: remove each non-overlapping occurrence of
`pat`, scanning left to right.  The `fuel` argument (instantiated with the length
of the scanned list, which each step strictly decreases) keeps the recursion
structural. -/
def pyReplaceAux (pat : List Char) : Nat → List Char → List Char
  | 0, l => l
  | _ + 1, [] => []
  | fuel + 1, c :: rest =>
    if isPrefixList pat (c :: rest) then pyReplaceAux pat fuel ((c :: rest).drop pat.length)
    else c :: pyReplaceAux pat fuel rest

/-- Python `s.replace(pat, "")` for a non-empty pattern `pat`. -/
def pyReplace (s pat : String) : String :=
  ⟨pyReplaceAux pat.data s.data.length s.data⟩

/-- `" ".join`-style concatenation over character lists. -/
def joinSep (sep : List Char) : List (List Char) → List Char
  | [] => []
  | [w] => w
  | w :: ws => w ++ sep ++ joinSep sep ws

/-- Python `s[:1].upper() + s[1:]`. -/
def pyCapitalizeFirst (s : String) : String :=
  match s.data with
  | [] => ⟨[]⟩
  | c :: rest => ⟨pyCharUpper c :: rest⟩

/-- `enumerate` over a list starting at index `i`. -/
def pyEnum (i : Nat) : List α → List (Nat × α)
  | [] => []
  | a :: l => (i, a) :: pyEnum (i + 1) l

/-! ## src/tokenizer.py

`WORD_RE = re.compile(r"[A-Za-z']+|[^\sA-Za-z']")`; `findall` takes, at each
position, a maximal run of letters/apostrophes, or a single non-space
non-letter character, and skips whitespace (which matches neither branch). -/

/-- Scanner for `WORD_RE.findall`; `cur` accumulates the current letter run
(in reverse). -/
def tokenizeAux (cur : List Char) : List Char → List String
  | [] => if cur.isEmpty then [] else [⟨cur.reverse⟩]
  | c :: rest =>
    if isWordChar c then tokenizeAux (c :: cur) rest
    else
      (if cur.isEmpty then ([] : List String) else [⟨cur.reverse⟩]) ++
      (if pyIsSpace c then tokenizeAux [] rest else ⟨[c]⟩ :: tokenizeAux [] rest)

/-- `tokenize(text)` from src/tokenizer.py. -/
def tokenize (text : String) : List String := tokenizeAux [] text.data

/-! ## Python dict operations over association lists

Python dicts preserve insertion order; updating an existing key keeps its
position, inserting a new key appends. -/

/-- The feature mapping of a Token (`Dict[str, str]`). -/
abbrev Feats := List (String × String)

/-- `d.get(k)`. -/
def dget (d : Feats) (k : String) : Option String :=
  (d.find? (fun p => p.1 == k)).map (fun p => p.2)

/-- `d.get(k, v)`. -/
def dgetD (d : Feats) (k v : String) : String := (dget d k).getD v

/-- `d[k] = v`: replace in place if the key exists, else append. -/
def dset (d : Feats) (k v : String) : Feats :=
  match d with
  | [] => [(k, v)]
  | (k0, v0) :: rest => if k0 == k then (k0, v) :: rest else (k0, v0) :: dset rest k v

/-- `d.setdefault(k, v)`. -/
def dsetdefault (d : Feats) (k v : String) : Feats :=
  if (dget d k).isSome then d else d ++ [(k, v)]

/-! ## src/engine.py data model -/

/-- `Token` dataclass: `text`, optional `lemma` and `pos`, a feature dict that
starts out as `None`, and a language code defaulting to `"en"`. -/
structure Token where
  text : String
  lemma' : Option String
  pos : Option String
  feats : Option Feats
  lang : String
deriving DecidableEq, Repr

/-- `Token(t)`: only the surface text is set at tokenization. -/
def mkToken (t : String) : Token := ⟨t, none, none, none, "en"⟩

/-- Placeholder token used to total-ize list indexing where the source indexes
with statically in-range indices. -/
def tokDflt : Token := ⟨"", none, none, none, "en"⟩

/-- `Wordform` dataclass. -/
structure Wordform where
  surface : String
  lemma' : String
  pos : String
  feats : Feats
deriving DecidableEq, Repr

/-- One lexicon entry `{lemma_en, pos, lemma_lang, gloss}`. -/
structure LexEntry where
  lemma_en : String
  pos : String
  lemma_lang : String
  gloss : String
deriving DecidableEq, Repr

/-- The per-language module contract consumed by `TranslatorEngine`. -/
structure LangMod where
  key : String
  lexGet : String → Option LexEntry
  synMap : List Token → List Token
  translate_lemma_en_to_lang : String → String → String
  translate_lemma_lang_to_en : String → String → String
  inflect_from_lemma : String → String → Feats → Wordform
  decode_surface_to_en : String → String → Feats → Wordform
  assemble_sentence : List Wordform → String

/-- `assemble_sentence` (identical in both language modules): join surfaces
with single spaces and upper-case exactly the first character. -/
def assemble_sentence (wfs : List Wordform) : String :=
  pyCapitalizeFirst ⟨joinSep [' '] (wfs.map (fun w => w.surface.data))⟩

namespace Quenya

/-- `lexicon_en` from src/languages/quenya.py, in source order. -/
def lexicon_en : List (String × LexEntry) :=
  [ ("friend", ⟨"friend", "NOUN", "meldo", "friend"⟩),
    ("king", ⟨"king", "NOUN", "aran", "king"⟩),
    ("queen", ⟨"queen", "NOUN", "tári", "queen"⟩),
    ("light", ⟨"light", "NOUN", "calë", "light"⟩),
    ("darkness", ⟨"darkness", "NOUN", "mórë", "darkness"⟩),
    ("water", ⟨"water", "NOUN", "nen", "water"⟩),
    ("ring", ⟨"ring", "NOUN", "corma", "ring"⟩),
    ("bring", ⟨"bring", "VERB", "tulya", "bring"⟩),
    ("bind", ⟨"bind", "VERB", "notya", "bind"⟩),
    ("see", ⟨"see", "VERB", "cenda", "see"⟩),
    ("love", ⟨"love", "VERB", "melë", "love"⟩),
    ("the", ⟨"the", "DET", "i", "the"⟩),
    ("to", ⟨"to", "ADP", "na", "to"⟩),
    ("of", ⟨"of", "ADP", "o", "of"⟩),
    ("and", ⟨"and", "CONJ", "ar", "and"⟩),
    ("I", ⟨"I", "PRON", "ni", "I"⟩),
    ("you", ⟨"you", "PRON", "le", "you"⟩) ]

/-- `lexicon_en.get(k)`. -/
def lexGet (k : String) : Option LexEntry :=
  (lexicon_en.find? (fun p => p.1 == k)).map (fun p => p.2)

/-- `lexicon_lang_to_en = {v["lemma_lang"]: k for k, v in lexicon_en.items()}`. -/
def lexicon_lang_to_en : List (String × String) :=
  lexicon_en.map (fun p => (p.2.lemma_lang, p.1))

/-- `lexicon_lang_to_en.get(k, dflt)` (all `lemma_lang` values are distinct, so
first-match lookup agrees with the dict comprehension). -/
def revGet (k dflt : String) : String :=
  ((lexicon_lang_to_en.find? (fun p => p.1 == k)).map (fun p => p.2)).getD dflt

/-- `noun_plural`. -/
def noun_plural (stem : String) : String :=
  if pyEndsWith stem "a" || pyEndsWith stem "o" then stem ++ "r"
  else if pyEndsWith stem "ë" then pyDropRight stem 1 ++ "i"
  else stem ++ "i"

/-- `noun_genitive`. -/
def noun_genitive (stem : String) : String :=
  if pyEndsWith stem "a" then pyDropRight stem 1 ++ "o" else stem ++ "o"

/-- `noun_allative`. -/
def noun_allative (stem : String) : String := stem ++ "nna"

/-- The fixed person/number agreement table of `_verb_agreement_suffix`. -/
def agreement_table : List ((String × String) × String) :=
  [ (("1", "SG"), "n"), (("2", "SG"), "l"), (("3", "SG"), ""),
    (("1", "PL"), "lmë"), (("2", "PL"), "lvë"), (("3", "PL"), "r") ]

/-- `_verb_agreement_suffix`: `table.get((person, number), "")`. -/
def verb_agreement_suffix (person number : String) : String :=
  ((agreement_table.find? (fun p => p.1.1 == person && p.1.2 == number)).map
    (fun p => p.2)).getD ""

/-- `verb_present`. -/
def verb_present (stem person number : String) : String :=
  (if pyEndsWith stem "a" then stem else stem ++ "a") ++ verb_agreement_suffix person number

/-- `verb_past`. -/
def verb_past (stem person number : String) : String :=
  stem ++ "në" ++ verb_agreement_suffix person number

/-- `verb_future`. -/
def verb_future (stem person number : String) : String :=
  stem ++ "uva" ++ verb_agreement_suffix person number

/-- `translate_lemma_en_to_lang`. -/
def translate_lemma_en_to_lang (lemma_en : String) (_pos : String) : String :=
  match lexGet lemma_en with
  | some e => e.lemma_lang
  | none => lemma_en

/-- `translate_lemma_lang_to_en`. -/
def translate_lemma_lang_to_en (lemma_lang : String) (_pos : String) : String :=
  revGet lemma_lang lemma_lang

/-- The running state of the role scan in `syntax_map`. -/
structure Roles where
  subj : Option Nat
  verb : Option Nat
  obj : Option Nat
deriving DecidableEq, Repr

/-- One iteration of the first loop of `syntax_map` at index `i`. -/
def stepRole (i : Nat) (t : Token) (st : Roles) : Roles :=
  let st1 := if t.pos == some "PRON" || (t.pos == some "NOUN" && st.subj.isNone) then
      { st with subj := some i } else st
  let st2 := if t.pos == some "VERB" then { st1 with verb := some i } else st1
  if t.pos == some "NOUN" && !(some i == st2.subj) then { st2 with obj := some i } else st2

/-- The first loop of `syntax_map`, scanning from index `i` with state `st`. -/
def scanAux (i : Nat) (st : Roles) : List Token → Roles
  | [] => st
  | t :: ts => scanAux (i + 1) (stepRole i t st) ts

/-- Final (subject, verb, object) indices computed by the first loop of
`syntax_map`. -/
def scanRoles (toks : List Token) : Roles := scanAux 0 ⟨none, none, none⟩ toks

/-- The second loop body of `syntax_map`: attach case and subject
person/number features to the token at index `i`. -/
def annotateTok (subj obj : Option Nat) (i : Nat) (t : Token) : Token :=
  let feats := t.feats.getD []
  let feats := if some i == obj then dset feats "case" "ACC" else feats
  if some i == subj then
    let feats := dset feats "case" "NOM"
    let feats :=
      if pyLower t.text == "i" || pyLower t.text == "I" then
        dset (dset feats "person" "1") "number" "SG"
      else if pyLower t.text == "you" then
        dset (dset feats "person" "2") "number" "SG"
      else dsetdefault (dsetdefault feats "person" "3") "number" "SG"
    { t with feats := some feats }
  else { t with feats := some feats }

/-- The list `out` built by the second loop of `syntax_map`. -/
def annotated (toks : List Token) : List Token :=
  let r := scanRoles toks
  (pyEnum 0 toks).map (fun q => annotateTok r.subj r.obj q.1 q.2)

/-- `syntax_map` from src/languages/quenya.py: role scan, feature annotation,
then SOV reorder when subject, verb, and object were all found. -/
def synMap (toks : List Token) : List Token :=
  let r := scanRoles toks
  let out := annotated toks
  match r.subj, r.verb, r.obj with
  | some s, some v, some o =>
    [out.getD s tokDflt, out.getD o tokDflt, out.getD v tokDflt] ++
      ((List.range out.length).filter (fun i => !(i == s || i == o || i == v))).map
        (fun i => out.getD i tokDflt)
  | _, _, _ => out

/-- `inflect_from_lemma` from src/languages/quenya.py. -/
def inflect_from_lemma (lemma' pos : String) (feats : Feats) : Wordform :=
  if pos == "NOUN" then
    let case := dgetD feats "case" "NOM"
    let num := dgetD feats "number" "SG"
    let stem := lemma'
    let stem := if case == "GEN" then noun_genitive stem
      else if case == "ALL" then noun_allative stem else stem
    let stem := if num == "PL" then noun_plural stem else stem
    ⟨stem, lemma', pos, feats⟩
  else if pos == "PRON" || pos == "DET" || pos == "ADP" || pos == "CONJ" then
    ⟨lemma', lemma', pos, feats⟩
  else if pos == "VERB" then
    let tense := dgetD feats "tense" "PRS"
    let person := dgetD feats "person" "3"
    let number := dgetD feats "number" "SG"
    let form := if tense == "PRS" then verb_present lemma' person number
      else if tense == "PST" then verb_past lemma' person number
      else if tense == "FUT" then verb_future lemma' person number
      else verb_present lemma' person number
    ⟨form, lemma', pos, feats⟩
  else ⟨lemma', lemma', pos, feats⟩

/-- The suffix tuple of `decode_surface_to_en`, in source order. -/
def decode_suffixes : List String := ["nna", "o", "r", "në", "uva", "lmë", "lvë"]

/-- The `for suf in (...) ... break` loop of `decode_surface_to_en`: on the
first suffix match, `surface.replace(suf, "")`. -/
def stripLoop (sufs : List String) (surface : String) : String :=
  match sufs with
  | [] => surface
  | suf :: rest => if pyEndsWith surface suf then pyReplace surface suf else stripLoop rest surface

/-- `decode_surface_to_en` from src/languages/quenya.py. -/
def decode_surface_to_en (surface pos : String) (feats : Feats) : Wordform :=
  let lemma_guess := stripLoop decode_suffixes surface
  let en_lemma := translate_lemma_lang_to_en lemma_guess pos
  ⟨en_lemma, en_lemma, pos, feats⟩

end Quenya

namespace Sindarin

/-- `lexicon_en` from src/languages/sindarin.py, in source order. -/
def lexicon_en : List (String × LexEntry) :=
  [ ("friend", ⟨"friend", "NOUN", "mellon", "friend"⟩),
    ("king", ⟨"king", "NOUN", "aran", "king"⟩),
    ("light", ⟨"light", "NOUN", "galad", "light"⟩),
    ("darkness", ⟨"darkness", "NOUN", "morn", "darkness"⟩),
    ("water", ⟨"water", "NOUN", "nen", "water"⟩),
    ("ring", ⟨"ring", "NOUN", "ereg", "ring"⟩),
    ("bring", ⟨"bring", "VERB", "togo", "bring"⟩),
    ("bind", ⟨"bind", "VERB", "gorn", "bind"⟩),
    ("see", ⟨"see", "VERB", "círa", "see"⟩),
    ("love", ⟨"love", "VERB", "meleth", "love"⟩),
    ("the", ⟨"the", "DET", "i", "the"⟩),
    ("to", ⟨"to", "ADP", "na", "to"⟩),
    ("of", ⟨"of", "ADP", "o", "of"⟩),
    ("and", ⟨"and", "CONJ", "a", "and"⟩),
    ("I", ⟨"I", "PRON", "im", "I"⟩),
    ("you", ⟨"you", "PRON", "le", "you"⟩) ]

/-- `lexicon_en.get(k)`. -/
def lexGet (k : String) : Option LexEntry :=
  (lexicon_en.find? (fun p => p.1 == k)).map (fun p => p.2)

/-- `lexicon_lang_to_en`. -/
def lexicon_lang_to_en : List (String × String) :=
  lexicon_en.map (fun p => (p.2.lemma_lang, p.1))

/-- `lexicon_lang_to_en.get(k, dflt)`. -/
def revGet (k dflt : String) : String :=
  ((lexicon_lang_to_en.find? (fun p => p.1 == k)).map (fun p => p.2)).getD dflt

/-- The lenition rule dict of `apply_lenition`, in source order. -/
def lenition_rules : List (String × String) :=
  [("p", "b"), ("t", "d"), ("c", "g"), ("m", "v"), ("s", "h"), ("h", ""), ("gw", "w")]

/-- The `for k, v in rules.items()` loop of `apply_lenition`:
on the first matching prefix, `v + noun[len(k):]`. -/
def lenLoop (rules : List (String × String)) (noun : String) : String :=
  match rules with
  | [] => noun
  | (k, v) :: rest =>
    if pyStartsWith noun k then v ++ pyDrop noun k.data.length else lenLoop rest noun

/-- `apply_lenition`. -/
def apply_lenition (noun : String) : String := lenLoop lenition_rules noun

/-- `pluralize_noun`. -/
def pluralize_noun (stem : String) : String :=
  if pyEndsWith stem "on" then pyDropRight stem 2 ++ "in"
  else if pyEndsWith stem "eg" then pyDropRight stem 2 ++ "ig"
  else stem ++ "in"

/-- `verb_present`. -/
def verb_present (stem person number : String) : String :=
  if person == "3" && number == "SG" then stem
  else if number == "PL" then stem ++ "ir"
  else stem ++ "a"

/-- `verb_past`. -/
def verb_past (stem : String) : String := stem ++ "nt"

/-- `verb_future`. -/
def verb_future (stem : String) : String := stem ++ "tha"

/-- `translate_lemma_en_to_lang`. -/
def translate_lemma_en_to_lang (lemma_en : String) (_pos : String) : String :=
  match lexGet lemma_en with
  | some e => e.lemma_lang
  | none => lemma_en

/-- `translate_lemma_lang_to_en`. -/
def translate_lemma_lang_to_en (lemma_lang : String) (_pos : String) : String :=
  revGet lemma_lang lemma_lang

/-- The loop body of `syntax_map`: annotate one token, threading the
`prev_det` flag. -/
def stepSin (prev_det : Bool) (t : Token) : Token × Bool :=
  let feats := t.feats.getD []
  if t.pos == some "DET" then ({ t with feats := some (dset feats "det" "i") }, true)
  else if t.pos == some "NOUN" then
    ({ t with feats := some (dset feats "lenite" (if prev_det then "yes" else "no")) }, false)
  else if t.pos == some "VERB" then
    ({ t with feats := some (dsetdefault feats "tense" "PRS") }, false)
  else ({ t with feats := some feats }, false)

/-- The streaming pass of `syntax_map`, carrying `prev_det`. -/
def synAux (prev_det : Bool) : List Token → List Token
  | [] => []
  | t :: ts =>
    let p := stepSin prev_det t
    p.1 :: synAux p.2 ts

/-- `syntax_map` from src/languages/sindarin.py: order-preserving annotation. -/
def synMap (toks : List Token) : List Token := synAux false toks

/-- `inflect_from_lemma` from src/languages/sindarin.py. -/
def inflect_from_lemma (lemma' pos : String) (feats : Feats) : Wordform :=
  if pos == "NOUN" then
    let stem := lemma'
    let stem := if (dgetD feats "lenite" "") == "yes" then apply_lenition stem else stem
    let stem := if (dgetD feats "number" "") == "PL" then pluralize_noun stem else stem
    ⟨stem, lemma', pos, feats⟩
  else if pos == "DET" then ⟨"i", lemma', pos, feats⟩
  else if pos == "PRON" || pos == "ADP" || pos == "CONJ" then
    ⟨lemma', lemma', pos, feats⟩
  else if pos == "VERB" then
    let tense := dgetD feats "tense" "PRS"
    let person := dgetD feats "person" "3"
    let number := dgetD feats "number" "SG"
    let form := if tense == "PRS" then verb_present lemma' person number
      else if tense == "PST" then verb_past lemma'
      else if tense == "FUT" then verb_future lemma'
      else verb_present lemma' person number
    ⟨form, lemma', pos, feats⟩
  else ⟨lemma', lemma', pos, feats⟩

/-- The de-lenition pattern list of `decode_surface_to_en`, in source order. -/
def delenition_rules : List (String × String) :=
  [("b", "p"), ("d", "t"), ("g", "c"), ("v", "m")]

/-- The de-lenition loop of `decode_surface_to_en`: on the first matching
prefix, `base + s[1:]`. -/
def delenLoop (rules : List (String × String)) (s : String) : String :=
  match rules with
  | [] => s
  | (pre, base) :: rest =>
    if pyStartsWith s pre then base ++ pyDrop s 1 else delenLoop rest s

/-- The suffix tuple of `decode_surface_to_en`, in source order. -/
def decode_suffixes : List String := ["in", "ir", "a", "nt", "tha"]

/-- The suffix-strip loop of `decode_surface_to_en`: on the first suffix match,
`s[:-len(suf)]`. -/
def stripEndLoop (sufs : List String) (s : String) : String :=
  match sufs with
  | [] => s
  | suf :: rest =>
    if pyEndsWith s suf then pyDropRight s suf.data.length else stripEndLoop rest s

/-- `decode_surface_to_en` from src/languages/sindarin.py. -/
def decode_surface_to_en (surface pos : String) (feats : Feats) : Wordform :=
  let s := delenLoop delenition_rules surface
  let s := stripEndLoop decode_suffixes s
  let en_lemma := translate_lemma_lang_to_en s pos
  ⟨en_lemma, en_lemma, pos, feats⟩

end Sindarin

/-- The Quenya language module, as registered in src/pipeline.py. -/
def quenyaMod : LangMod :=
  ⟨"quenya", Quenya.lexGet, Quenya.synMap, Quenya.translate_lemma_en_to_lang,
    Quenya.translate_lemma_lang_to_en, Quenya.inflect_from_lemma,
    Quenya.decode_surface_to_en, assemble_sentence⟩

/-- The Sindarin language module, as registered in src/pipeline.py. -/
def sindarinMod : LangMod :=
  ⟨"sindarin", Sindarin.lexGet, Sindarin.synMap, Sindarin.translate_lemma_en_to_lang,
    Sindarin.translate_lemma_lang_to_en, Sindarin.inflect_from_lemma,
    Sindarin.decode_surface_to_en, assemble_sentence⟩

/-! ## src/engine.py: TranslatorEngine -/

namespace TranslatorEngine

/-- `TranslatorEngine._guess_pos`. -/
def guess_pos (word : String) : String :=
  if pyEndsWith word "ing" then "VERB"
  else if pyEndsWith word "ly" then "ADV"
  else if pyEndsWith word "ed" then "VERB"
  else "NOUN"

/-- The per-token body of `TranslatorEngine.pos_tag`: lexicon lookup on the
lowercased text, heuristic fallback, and `tok.feats = tok.feats or {}`. -/
def tagTok (L : LangMod) (t : Token) : Token :=
  match L.lexGet (pyLower t.text) with
  | some e => { t with lemma' := some e.lemma_en, pos := some e.pos, feats := some (t.feats.getD []) }
  | none =>
    { t with lemma' := some (pyLower t.text), pos := some (guess_pos t.text),
             feats := some (t.feats.getD []) }

/-- `TranslatorEngine.pos_tag`. -/
def pos_tag (L : LangMod) (toks : List Token) : List Token := toks.map (tagTok L)

/-- `TranslatorEngine.translate_lemmas`: build a fresh Token copy per input
token, with the lemma mapped through the direction's lexicon.  After tagging,
`lemma` and `pos` are always set, and the Python code passes them through
unchanged into the copy, so the `Option` wrappers are threaded directly. -/
def translate_lemmas (L : LangMod) (toks : List Token) (direction : String) : List Token :=
  toks.map (fun tok =>
    let mapped : Token := ⟨tok.text, tok.lemma', tok.pos, some (tok.feats.getD []), "en"⟩
    if direction == "encode" then
      { mapped with
          lemma' := tok.lemma'.map (fun l => L.translate_lemma_en_to_lang l (tok.pos.getD "")),
          lang := L.key }
    else
      { mapped with
          lemma' := some (L.translate_lemma_lang_to_en (tok.lemma'.getD (pyLower tok.text))
            (tok.pos.getD "")),
          lang := "en" })

/-- `TranslatorEngine.morph_generate`.  The `if tok.pos == "VERB"` branch of
the source is a `pass` (no effect) and is therefore not represented. -/
def morph_generate (L : LangMod) (toks : List Token) (direction : String) : List Wordform :=
  toks.map (fun tok =>
    let feats := tok.feats.getD []
    if direction == "encode" then
      L.inflect_from_lemma (tok.lemma'.getD "") (tok.pos.getD "") feats
    else
      L.decode_surface_to_en tok.text (tok.pos.getD "") feats)

/-- `TranslatorEngine.translate`: the five-stage pipeline. -/
def translate (L : LangMod) (text : String) (direction : String) : String :=
  let toks := (tokenize text).map mkToken
  let toks := pos_tag L toks
  let toks := L.synMap toks
  let toks := translate_lemmas L toks direction
  let wordforms := morph_generate L toks direction
  L.assemble_sentence wordforms

end TranslatorEngine

/-! ## Specification-side definitions

The definitions below formalize wording of the specification's claims (role
selection by first/last occurrence, single suffix strip, the closed tag set);
they are compared against the source embedding above. -/

/-- The set of part-of-speech tags the tagging stage can actually produce. -/
def engine_tag_set : List String := ["NOUN", "VERB", "PRON", "DET", "ADP", "CONJ", "ADV"]

/-- The first suffix of `sufs` (in list order) that `s` ends with. -/
def firstSuffixMatch (sufs : List String) (s : String) : Option String :=
  sufs.find? (fun suf => pyEndsWith s suf)

/-- Claim-side reading of the C4 decode contract for Quenya: strip the first
match of the suffix list checked longest-first, from the end of the string
only, then reverse-lexicon lookup with pass-through fallback. -/
def quenyaDecodeClaim (surface pos : String) (feats : Feats) : Wordform :=
  let stem := match firstSuffixMatch ["nna", "uva", "lmë", "lvë", "në", "o", "r"] surface with
    | some suf => pyDropRight surface suf.data.length
    | none => surface
  let en := Quenya.translate_lemma_lang_to_en stem pos
  ⟨en, en, pos, feats⟩

/-- Index of the first token satisfying `p`. -/
def idxFirst (p : Token → Bool) (toks : List Token) : Option Nat :=
  ((pyEnum 0 toks).find? (fun q => p q.2)).map Prod.fst

/-- Index of the last token satisfying `p`. -/
def idxLast (p : Token → Bool) (toks : List Token) : Option Nat :=
  (((pyEnum 0 toks).filter (fun q => p q.2)).map Prod.fst).getLast?

/-- Token tagged as a pronoun. -/
def isPronTok (t : Token) : Bool := t.pos == some "PRON"

/-- Token tagged as a noun. -/
def isNounTok (t : Token) : Bool := t.pos == some "NOUN"

/-- Token tagged as a verb. -/
def isVerbTok (t : Token) : Bool := t.pos == some "VERB"

/-- Token tagged as a pronoun or a noun. -/
def isPronOrNounTok (t : Token) : Bool := isPronTok t || isNounTok t

/-- The subject index the Quenya role scan actually selects: the last pronoun
when one occurs, otherwise the first noun. -/
def subjRoleSpec (toks : List Token) : Option Nat :=
  match idxLast isPronTok toks with
  | some i => some i
  | none => idxFirst isNounTok toks

/-- The verb index the Quenya role scan actually selects: the last verb. -/
def verbRoleSpec (toks : List Token) : Option Nat := idxLast isVerbTok toks

/-- The object index the Quenya role scan actually selects: the last noun
other than the first pronoun-or-noun token. -/
def objRoleSpec (toks : List Token) : Option Nat :=
  (((pyEnum 0 toks).filter
      (fun q => isNounTok q.2 && !(some q.1 == idxFirst isPronOrNounTok toks))).map
    Prod.fst).getLast?

/-- A three-token PRON/VERB/NOUN example sequence, tagged as the pipeline
would tag "I see the king" minus the determiner (used to witness the SOV
reorder). -/
def exC6toks : List Token :=
  [⟨"I", some "I", some "PRON", some [], "en"⟩,
   ⟨"see", some "see", some "VERB", some [], "en"⟩,
   ⟨"king", some "king", some "NOUN", some [], "en"⟩]

/-! ## General-purpose lemmas -/

/-- Elements of `l.zip (l.map f)` pair each element with its image. -/
theorem zip_map_snd {α β : Type} (l : List α) (f : α → β) :
    ∀ q ∈ l.zip (l.map f), q.2 = f q.1 := by
  induction l with
  | nil => intro q hq; simp at hq
  | cons a l ih =>
    intro q hq
    rw [List.map_cons, List.zip_cons_cons, List.mem_cons] at hq
    rcases hq with rfl | hq
    · rfl
    · exact ih q hq

/-- Whitespace characters are not word characters. -/
theorem space_not_word {c : Char} (h : pyIsSpace c = true) : isWordChar c = false := by
  have hc : c ∈ [' ', '\t', '\n', '\x0B', '\x0C', '\r'] := by
    simpa [pyIsSpace] using h
  fin_cases hc <;> decide

/-- The tokenizer returns no token on all-whitespace input. -/
theorem tokenizeAux_all_space :
    ∀ l : List Char, (∀ c ∈ l, pyIsSpace c = true) → tokenizeAux [] l = [] := by
  intro l h
  induction l with
  | nil => rfl
  | cons c rest ih =>
    have hc := h c (by simp)
    have hw := space_not_word hc
    have hr := ih (fun d hd => h d (by simp [hd]))
    simp [tokenizeAux, hw, hc, hr]

/-! ## Claim C10 -/

/-- C10: an input with no non-whitespace characters tokenizes to the empty
sequence and translates to the empty string, for both language modules and
both directions. -/
theorem c10_empty_input (dir s : String) (h : ∀ c ∈ s.data, pyIsSpace c = true) :
    tokenize s = [] ∧
    TranslatorEngine.translate quenyaMod s dir = "" ∧
    TranslatorEngine.translate sindarinMod s dir = "" := by
  have htok : tokenize s = [] := tokenizeAux_all_space s.data h
  refine ⟨htok, ?_, ?_⟩ <;> · rw [TranslatorEngine.translate, htok]; rfl

/-- C10 witness: the empty string and a whitespace-only string, encode and
decode directions. -/
theorem c10_empty_input_witness :
    (tokenize "" = [] ∧
      TranslatorEngine.translate quenyaMod "" "encode" = "" ∧
      TranslatorEngine.translate sindarinMod "" "encode" = "") ∧
    (tokenize "  " = [] ∧
      TranslatorEngine.translate quenyaMod "  " "decode" = "" ∧
      TranslatorEngine.translate sindarinMod "  " "decode" = "") :=
  ⟨c10_empty_input "encode" "" (by decide), c10_empty_input "decode" "  " (by decide)⟩

/-! ## Claim C1 -/

/-- C1 (code evaluation at the failing input): translating "I see the king"
with the Quenya module in the encode direction returns "I aran cenda i", not
"Ni aran cendan".  The lexicon keys the pronoun as "I" while `pos_tag` looks
up the lowercased text "i", so "I" is tagged by the fallback (NOUN, lemma
"i") and never reaches the PRON entry; and `morph_generate` never propagates
the subject's person/number onto the verb (the propagation branch is `pass`),
so the verb receives the default 3/SG agreement, whose suffix is empty. -/
theorem c1_translate_quenya_encode_eval :
    TranslatorEngine.translate quenyaMod "I see the king" "encode" = "I aran cenda i" := by
  decide

/-! ## Claim C2 -/

/-- C2 counterexample: decoding "meldo" with the Quenya module yields "Meld",
not the original English lemma "friend" (the suffix "o" is stripped from the
bare lemma before the reverse lookup, which then misses). -/
theorem c2_counterexample :
    TranslatorEngine.translate quenyaMod "meldo" "decode" ≠ "friend" ∧
    TranslatorEngine.translate quenyaMod "meldo" "decode" = "Meld" := by
  constructor
  · decide
  · decide

/-- C2 amended: for every lexicon entry of either language whose
part-of-speech is NOUN or a closed class and whose key survives the
lowercasing lookup (every entry except the pronoun keyed "I"), encoding the
single-word key yields the target lemma with its first letter capitalized by
assembly; encoding "I" instead returns "I" unchanged, its lexicon entry being
unreachable.  Decoding a single-word target lemma returns the English source
lemma, capitalized, exactly for the entries whose lemma consists of tokenizer
word characters and survives the decode preprocessing unchanged (no suffix of
the strip list matches, and for Sindarin no de-lenition pattern matches);
otherwise the stem is mangled first, e.g. decode("meldo") = "Meld" and
Sindarin decode("galad") = "Calad", so the original round trip fails. -/
theorem c2_roundtrip_amended :
    (∀ q ∈ Quenya.lexicon_en,
      q.2.pos ∈ ["NOUN", "PRON", "DET", "ADP", "CONJ"] → pyLower q.1 = q.1 →
      TranslatorEngine.translate quenyaMod q.1 "encode" = pyCapitalizeFirst q.2.lemma_lang) ∧
    (∀ q ∈ Sindarin.lexicon_en,
      q.2.pos ∈ ["NOUN", "PRON", "DET", "ADP", "CONJ"] → pyLower q.1 = q.1 →
      TranslatorEngine.translate sindarinMod q.1 "encode" = pyCapitalizeFirst q.2.lemma_lang) ∧
    (TranslatorEngine.translate quenyaMod "I" "encode" = "I" ∧
      TranslatorEngine.translate sindarinMod "I" "encode" = "I") ∧
    (∀ q ∈ Quenya.lexicon_en,
      q.2.lemma_lang.data.all isWordChar = true →
      firstSuffixMatch Quenya.decode_suffixes q.2.lemma_lang = none →
      TranslatorEngine.translate quenyaMod q.2.lemma_lang "decode" =
        pyCapitalizeFirst q.2.lemma_en) ∧
    (∀ q ∈ Sindarin.lexicon_en,
      q.2.lemma_lang.data.all isWordChar = true →
      Sindarin.delenition_rules.find? (fun r => pyStartsWith q.2.lemma_lang r.1) = none →
      firstSuffixMatch Sindarin.decode_suffixes q.2.lemma_lang = none →
      TranslatorEngine.translate sindarinMod q.2.lemma_lang "decode" =
        pyCapitalizeFirst q.2.lemma_en) ∧
    (TranslatorEngine.translate quenyaMod "meldo" "decode" = "Meld" ∧
      TranslatorEngine.translate sindarinMod "galad" "decode" = "Calad") := by
  decide

/-- C2 witness: the quantified statements instantiated at the "friend" entry
of each lexicon, with all hypotheses discharged concretely. -/
theorem c2_roundtrip_amended_witness :
    TranslatorEngine.translate quenyaMod "friend" "encode" = "Meldo" ∧
    TranslatorEngine.translate sindarinMod "mellon" "decode" = "Friend" :=
  ⟨c2_roundtrip_amended.1 ("friend", ⟨"friend", "NOUN", "meldo", "friend"⟩)
      (by decide) (by decide) (by decide),
    c2_roundtrip_amended.2.2.2.2.1 ("friend", ⟨"friend", "NOUN", "mellon", "friend"⟩)
      (by decide) (by decide) (by decide) (by decide)⟩

/-! ## Claim C9 -/

/-- C9 counterexample: `translate_lemmas` does not copy the feature mapping
through unchanged on every input: a token whose feature dict is `None` comes
back with an empty (non-`None`) dict in the copy. -/
theorem c9_counterexample :
    ((TranslatorEngine.translate_lemmas quenyaMod [⟨"x", none, none, none, "en"⟩]
        "encode").getD 0 tokDflt).feats ≠
      (⟨"x", none, none, none, "en"⟩ : Token).feats := by
  decide

/-- C9 amended: for either direction, `translate_lemmas` returns one fresh
Token copy per input token (the input list is not mutated — the operation is
a pure map); each copy keeps the input's text and part-of-speech, and its
feature mapping equals the input's when that is present and the empty mapping
when the input's is `None` (`dict(tok.feats or {})`). -/
theorem c9_translate_lemmas_amended (L : LangMod) (toks : List Token) (dir : String) :
    (TranslatorEngine.translate_lemmas L toks dir).length = toks.length ∧
    ∀ q ∈ toks.zip (TranslatorEngine.translate_lemmas L toks dir),
      q.2.text = q.1.text ∧ q.2.pos = q.1.pos ∧ q.2.feats = some (q.1.feats.getD []) := by
  refine ⟨by simp [TranslatorEngine.translate_lemmas], ?_⟩
  intro q hq
  have h2 := zip_map_snd toks _ q hq
  rw [h2]
  by_cases h : (dir == "encode") = true <;>
    simp [TranslatorEngine.translate_lemmas, h]

/-- C9 witness: the amended statement instantiated on a tagged token. -/
theorem c9_translate_lemmas_amended_witness :
    (TranslatorEngine.translate_lemmas quenyaMod [⟨"king", some "king", some "NOUN", some [], "en"⟩]
        "encode").length = 1 ∧
    ((⟨"king", some "king", some "NOUN", some [], "en"⟩ : Token),
        (TranslatorEngine.translate_lemmas quenyaMod
          [⟨"king", some "king", some "NOUN", some [], "en"⟩] "encode").getD 0 tokDflt).2.text =
      "king" := by
  refine ⟨(c9_translate_lemmas_amended quenyaMod _ "encode").1, ?_⟩
  have := (c9_translate_lemmas_amended quenyaMod
    [⟨"king", some "king", some "NOUN", some [], "en"⟩] "encode").2
    ((⟨"king", some "king", some "NOUN", some [], "en"⟩ : Token),
      (TranslatorEngine.translate_lemmas quenyaMod
        [⟨"king", some "king", some "NOUN", some [], "en"⟩] "encode").getD 0 tokDflt)
    (by decide)
  exact this.1

/-! ## Claim C7 -/

/-- C7: morphological generation is total — for every lemma, part-of-speech,
and feature mapping, `inflect_from_lemma` returns a Wordform carrying the
given lemma, part-of-speech, and features (part 1); absent features behave
exactly like the defaults case=NOM, number=SG, tense=PRS (present), person=3
(part 2); and a person/number pair outside the six-entry agreement table
yields the empty suffix (part 3). -/
theorem c7_inflect_total :
    (∀ (l p : String) (f : Feats),
      (Quenya.inflect_from_lemma l p f).lemma' = l ∧
      (Quenya.inflect_from_lemma l p f).pos = p ∧
      (Quenya.inflect_from_lemma l p f).feats = f ∧
      (Sindarin.inflect_from_lemma l p f).lemma' = l ∧
      (Sindarin.inflect_from_lemma l p f).pos = p ∧
      (Sindarin.inflect_from_lemma l p f).feats = f) ∧
    (∀ l p : String,
      (Quenya.inflect_from_lemma l p []).surface =
        (Quenya.inflect_from_lemma l p
          [("case", "NOM"), ("number", "SG"), ("tense", "PRS"), ("person", "3")]).surface ∧
      (Sindarin.inflect_from_lemma l p []).surface =
        (Sindarin.inflect_from_lemma l p
          [("case", "NOM"), ("number", "SG"), ("tense", "PRS"), ("person", "3")]).surface) ∧
    (∀ per num : String,
      (per, num) ∉ [("1", "SG"), ("2", "SG"), ("3", "SG"), ("1", "PL"), ("2", "PL"), ("3", "PL")] →
      Quenya.verb_agreement_suffix per num = "") := by
  refine ⟨?_, ?_, ?_⟩
  · intro l p f
    refine ⟨?_, ?_, ?_, ?_, ?_, ?_⟩ <;>
      · simp only [Quenya.inflect_from_lemma, Sindarin.inflect_from_lemma]
        split_ifs <;> rfl
  · intro l p
    constructor <;>
      · simp only [Quenya.inflect_from_lemma, Sindarin.inflect_from_lemma]
        simp [dgetD, dget]
        split_ifs <;> rfl
  · intro per num h
    have hn : Quenya.agreement_table.find? (fun q => q.1.1 == per && q.1.2 == num) = none := by
      rw [List.find?_eq_none]
      intro x hx
      fin_cases hx <;>
        · intro hb
          simp only [Bool.and_eq_true, beq_iff_eq] at hb
          obtain ⟨e1, e2⟩ := hb
          exact h (by rw [← e1, ← e2]; simp)
    unfold Quenya.verb_agreement_suffix
    rw [hn]
    rfl

/-- C7 witness: a person/number pair outside the table, e.g. dual second
person, gets the empty suffix. -/
theorem c7_inflect_total_witness :
    ("2", "DU") ∉ [("1", "SG"), ("2", "SG"), ("3", "SG"), ("1", "PL"), ("2", "PL"), ("3", "PL")] ∧
    Quenya.verb_agreement_suffix "2" "DU" = "" :=
  ⟨by decide, c7_inflect_total.2.2 "2" "DU" (by decide)⟩

/-! ## Claim C8 -/

/-- C8: the tagging stage is total — on any list of raw strings it returns a
same-length list in which every token has a set (non-`None`) lemma, a set
part-of-speech, and an empty (not `None`) feature dict.  The statement is
parametric in the language module, so it holds for any lexicon. -/
theorem c8_tagging_total (L : LangMod) (ts : List String) :
    (TranslatorEngine.pos_tag L (ts.map mkToken)).length = ts.length ∧
    ∀ t ∈ TranslatorEngine.pos_tag L (ts.map mkToken),
      (∃ l, t.lemma' = some l) ∧ (∃ p, t.pos = some p) ∧ t.feats = some [] := by
  constructor
  · simp [TranslatorEngine.pos_tag]
  · intro t ht
    simp only [TranslatorEngine.pos_tag, List.map_map, List.mem_map] at ht
    obtain ⟨s, hs, rfl⟩ := ht
    simp only [Function.comp_apply, TranslatorEngine.tagTok, mkToken]
    cases h : L.lexGet (pyLower s) <;> simp [h]

/-- C8 witness: the tagging totality facts at the single-word input "see". -/
theorem c8_tagging_total_witness :
    (TranslatorEngine.pos_tag quenyaMod (["see"].map mkToken)).length = ["see"].length ∧
    ((∃ l, (TranslatorEngine.tagTok quenyaMod (mkToken "see")).lemma' = some l) ∧
      (∃ p, (TranslatorEngine.tagTok quenyaMod (mkToken "see")).pos = some p) ∧
      (TranslatorEngine.tagTok quenyaMod (mkToken "see")).feats = some []) :=
  ⟨(c8_tagging_total quenyaMod ["see"]).1,
    (c8_tagging_total quenyaMod ["see"]).2 _ (by simp [TranslatorEngine.pos_tag])⟩

/-! ## Claim C4 -/

/-- The first-match `for`/`break` suffix loop of the Quenya decoder equals a
`find?` over the suffix list followed by one `str.replace`. -/
theorem stripLoop_eq_find (sufs : List String) (s : String) :
    Quenya.stripLoop sufs s =
      match sufs.find? (fun suf => pyEndsWith s suf) with
      | some suf => pyReplace s suf
      | none => s := by
  induction sufs with
  | nil => rfl
  | cons a rest ih =>
    by_cases h : pyEndsWith s a = true <;>
      simp [Quenya.stripLoop, List.find?, h, ih]

/-- The first-match suffix loop of the Sindarin decoder equals a `find?`
followed by one end-of-string strip. -/
theorem stripEndLoop_eq_find (sufs : List String) (s : String) :
    Sindarin.stripEndLoop sufs s =
      match sufs.find? (fun suf => pyEndsWith s suf) with
      | some suf => pyDropRight s suf.data.length
      | none => s := by
  induction sufs with
  | nil => rfl
  | cons a rest ih =>
    by_cases h : pyEndsWith s a = true <;>
      simp [Sindarin.stripEndLoop, List.find?, h, ih]

/-- The first-match de-lenition loop of the Sindarin decoder equals a `find?`
over the pattern list. -/
theorem delenLoop_eq_find (rules : List (String × String)) (s : String) :
    Sindarin.delenLoop rules s =
      match rules.find? (fun q => pyStartsWith s q.1) with
      | some q => q.2 ++ pyDrop s 1
      | none => s := by
  induction rules with
  | nil => rfl
  | cons a rest ih =>
    by_cases h : pyStartsWith s a.1 = true <;>
      simp [Sindarin.delenLoop, List.find?, h, ih]

/-- C4 counterexample: decoding the plural surface "cormar" (NOUN), the code
removes every occurrence of the matched suffix "r" (`str.replace`), producing
stem "coma" and returning "coma"; the claim's strip-only-at-the-end reading
would produce stem "corma" and return "ring". -/
theorem c4_counterexample :
    Quenya.decode_surface_to_en "cormar" "NOUN" [] ≠ quenyaDecodeClaim "cormar" "NOUN" [] ∧
    (Quenya.decode_surface_to_en "cormar" "NOUN" []).surface = "coma" ∧
    (quenyaDecodeClaim "cormar" "NOUN" []).surface = "ring" := by
  refine ⟨by decide, by decide, by decide⟩

/-- C4 amended: both decoders strip at most one suffix — the first match of
the fixed language-specific suffix list, checked in the order the source
lists them (not longest-first) — and look the stem up in the reverse lexicon
with pass-through fallback; Sindarin removes the matched suffix from the end
of the string (after reversing one lenition pattern), while Quenya removes
every occurrence of the matched suffix via `str.replace`. -/
theorem c4_decode_amended (s p : String) (f : Feats) :
    Quenya.decode_surface_to_en s p f =
      (let stem :=
        match firstSuffixMatch Quenya.decode_suffixes s with
        | some suf => pyReplace s suf
        | none => s
       let en := Quenya.translate_lemma_lang_to_en stem p
       (⟨en, en, p, f⟩ : Wordform)) ∧
    Sindarin.decode_surface_to_en s p f =
      (let s1 :=
        match Sindarin.delenition_rules.find? (fun q => pyStartsWith s q.1) with
        | some q => q.2 ++ pyDrop s 1
        | none => s
       let stem :=
        match firstSuffixMatch Sindarin.decode_suffixes s1 with
        | some suf => pyDropRight s1 suf.data.length
        | none => s1
       let en := Sindarin.translate_lemma_lang_to_en stem p
       (⟨en, en, p, f⟩ : Wordform)) := by
  constructor
  · simp only [Quenya.decode_surface_to_en, stripLoop_eq_find, firstSuffixMatch]
  · simp only [Sindarin.decode_surface_to_en, stripEndLoop_eq_find, delenLoop_eq_find,
      firstSuffixMatch]

/-! ## Claim C5 -/

/-- The suffix heuristic can only return VERB, ADV, or NOUN. -/
theorem guess_pos_mem (w : String) : TranslatorEngine.guess_pos w ∈ engine_tag_set := by
  unfold TranslatorEngine.guess_pos
  split_ifs <;> decide

/-- Every Quenya lexicon entry carries a tag from the closed set. -/
theorem quenya_lex_pos_mem : ∀ q ∈ Quenya.lexicon_en, q.2.pos ∈ engine_tag_set := by decide

/-- Every Sindarin lexicon entry carries a tag from the closed set. -/
theorem sindarin_lex_pos_mem : ∀ q ∈ Sindarin.lexicon_en, q.2.pos ∈ engine_tag_set := by decide

/-- A successful Quenya lexicon lookup yields a tag from the closed set. -/
theorem quenya_lexGet_pos_mem {k : String} {e : LexEntry} :
    Quenya.lexGet k = some e → e.pos ∈ engine_tag_set := by
  intro hg
  unfold Quenya.lexGet at hg
  rw [Option.map_eq_some'] at hg
  obtain ⟨pr, hfind, hpr⟩ := hg
  rw [← hpr]
  exact quenya_lex_pos_mem pr (List.mem_of_find?_eq_some hfind)

/-- A successful Sindarin lexicon lookup yields a tag from the closed set. -/
theorem sindarin_lexGet_pos_mem {k : String} {e : LexEntry} :
    Sindarin.lexGet k = some e → e.pos ∈ engine_tag_set := by
  intro hg
  unfold Sindarin.lexGet at hg
  rw [Option.map_eq_some'] at hg
  obtain ⟨pr, hfind, hpr⟩ := hg
  rw [← hpr]
  exact sindarin_lex_pos_mem pr (List.mem_of_find?_eq_some hfind)

/-- A single-character string that is not a letter or apostrophe (i.e. a
punctuation token of the tokenizer) misses both lexicons. -/
theorem singleton_nonword_lexGet (c : Char) (h : isWordChar c = false) :
    Quenya.lexGet (pyLower ⟨[c]⟩) = none ∧ Sindarin.lexGet (pyLower ⟨[c]⟩) = none := by
  have h1 : (decide ('A' ≤ c) && decide (c ≤ 'Z')) = false := by
    simp only [isWordChar, isAsciiLetter, Bool.or_eq_false_iff] at h
    exact h.1.1
  have hl : pyCharLower c = c := by simp [pyCharLower, h1]
  have hll : pyLower ⟨[c]⟩ = ⟨[c]⟩ := by simp [pyLower, hl]
  have hne : c ≠ 'I' := by
    intro e
    rw [e] at h
    exact absurd h (by decide)
  rw [hll]
  constructor
  · have hfind : Quenya.lexicon_en.find? (fun p => p.1 == (⟨[c]⟩ : String)) = none := by
      rw [List.find?_eq_none]
      intro x hx
      fin_cases hx <;>
        · intro hb
          have hd := congrArg String.data (beq_iff_eq.1 hb)
          simp at hd
          try exact hne hd.symm
    unfold Quenya.lexGet
    rw [hfind]
    rfl
  · have hfind : Sindarin.lexicon_en.find? (fun p => p.1 == (⟨[c]⟩ : String)) = none := by
      rw [List.find?_eq_none]
      intro x hx
      fin_cases hx <;>
        · intro hb
          have hd := congrArg String.data (beq_iff_eq.1 hb)
          simp at hd
          try exact hne hd.symm
    unfold Sindarin.lexGet
    rw [hfind]
    rfl

/-- C5 counterexample: after tagging, "slowly" carries the tag ADV, which is
outside the claimed closed set, and the punctuation token "." carries NOUN,
not an UNKNOWN/other tag. -/
theorem c5_counterexample :
    ((TranslatorEngine.pos_tag quenyaMod [mkToken "slowly"]).getD 0 tokDflt).pos = some "ADV" ∧
    "ADV" ∉ ["NOUN", "VERB", "PRON", "DET", "ADP", "CONJ", "UNKNOWN"] ∧
    ((TranslatorEngine.pos_tag quenyaMod [mkToken "."]).getD 0 tokDflt).pos = some "NOUN" ∧
    "NOUN" ≠ "UNKNOWN" := by
  refine ⟨by decide, by decide, by decide, by decide⟩

/-- C5 amended: after tagging, every token's tag lies in the fixed set
{NOUN, VERB, PRON, DET, ADP, CONJ, ADV}; there is no UNKNOWN tag, and a
punctuation token (one character that is not a letter or apostrophe) receives
NOUN from the fallback heuristic, for both language modules. -/
theorem c5_tags_amended :
    (∀ (ts : List String) (t : Token), t ∈ TranslatorEngine.pos_tag quenyaMod (ts.map mkToken) →
      ∃ p ∈ engine_tag_set, t.pos = some p) ∧
    (∀ (ts : List String) (t : Token), t ∈ TranslatorEngine.pos_tag sindarinMod (ts.map mkToken) →
      ∃ p ∈ engine_tag_set, t.pos = some p) ∧
    (∀ c : Char, isWordChar c = false →
      (TranslatorEngine.pos_tag quenyaMod [mkToken ⟨[c]⟩]).map Token.pos = [some "NOUN"] ∧
      (TranslatorEngine.pos_tag sindarinMod [mkToken ⟨[c]⟩]).map Token.pos = [some "NOUN"]) := by
  refine ⟨?_, ?_, ?_⟩
  · intro ts t ht
    simp only [TranslatorEngine.pos_tag, List.map_map, List.mem_map] at ht
    obtain ⟨s, hs, rfl⟩ := ht
    simp only [Function.comp_apply, TranslatorEngine.tagTok, mkToken]
    cases hg : quenyaMod.lexGet (pyLower s) with
    | some e => exact ⟨e.pos, quenya_lexGet_pos_mem hg, rfl⟩
    | none => exact ⟨TranslatorEngine.guess_pos s, guess_pos_mem s, rfl⟩
  · intro ts t ht
    simp only [TranslatorEngine.pos_tag, List.map_map, List.mem_map] at ht
    obtain ⟨s, hs, rfl⟩ := ht
    simp only [Function.comp_apply, TranslatorEngine.tagTok, mkToken]
    cases hg : sindarinMod.lexGet (pyLower s) with
    | some e => exact ⟨e.pos, sindarin_lexGet_pos_mem hg, rfl⟩
    | none => exact ⟨TranslatorEngine.guess_pos s, guess_pos_mem s, rfl⟩
  · intro c h
    obtain ⟨hq, hs⟩ := singleton_nonword_lexGet c h
    have hg : TranslatorEngine.guess_pos ⟨[c]⟩ = "NOUN" := by
      have e1 : pyEndsWith ⟨[c]⟩ "ing" = false := by simp [pyEndsWith, isPrefixList]
      have e2 : pyEndsWith ⟨[c]⟩ "ly" = false := by simp [pyEndsWith, isPrefixList]
      have e3 : pyEndsWith ⟨[c]⟩ "ed" = false := by simp [pyEndsWith, isPrefixList]
      simp [TranslatorEngine.guess_pos, e1, e2, e3]
    constructor <;>
      simp [TranslatorEngine.pos_tag, TranslatorEngine.tagTok, mkToken, quenyaMod, sindarinMod,
        hq, hs, hg]

/-- C5 witness: the amended tag-set membership at a mixed input, and the
punctuation clause at the period character. -/
theorem c5_tags_amended_witness :
    (∃ p ∈ engine_tag_set,
      (TranslatorEngine.tagTok quenyaMod (mkToken "slowly")).pos = some p) ∧
    isWordChar '.' = false ∧
    (TranslatorEngine.pos_tag quenyaMod [mkToken ⟨['.']⟩]).map Token.pos = [some "NOUN"] :=
  ⟨c5_tags_amended.1 ["slowly"] _ (by simp [TranslatorEngine.pos_tag]), by decide,
    (c5_tags_amended.2.2 '.' (by decide)).1⟩

/-! ## Claim C6 -/

/-- Shifting the start index of `pyEnum` increments every index. -/
theorem pyEnum_shift {α : Type} (l : List α) :
    ∀ i, pyEnum (i + 1) l = (pyEnum i l).map (fun q => (q.1 + 1, q.2)) := by
  induction l with
  | nil => intro i; rfl
  | cons a l ih =>
    intro i
    simp only [pyEnum, List.map_cons]
    exact congrArg (List.cons _) (ih (i + 1))

/-- Indexing a filtered `range` equals filtering the enumerated list: the
Python comprehension `[out[i] for i in range(len(out)) if p(i)]` keeps
exactly the elements at indices satisfying `p`, in order. -/
theorem range_filter_getD {α : Type} (l : List α) (d : α) :
    ∀ p : Nat → Bool,
      ((List.range l.length).filter p).map (fun i => l.getD i d) =
        ((pyEnum 0 l).filter (fun q => p q.1)).map Prod.snd := by
  induction l with
  | nil => intro p; rfl
  | cons a l ih =>
    intro p
    rw [List.length_cons, List.range_succ_eq_map]
    show (List.filter p (0 :: (List.range l.length).map (· + 1))).map _ =
      (List.filter _ ((0, a) :: pyEnum 1 l)).map Prod.snd
    rw [pyEnum_shift l 0]
    by_cases hp : p 0 = true <;>
      · simp only [List.filter_cons, hp, if_true, if_false, List.map_cons, List.filter_map,
          List.map_map, Bool.false_eq_true]
        simp only [Function.comp_def, List.getD_cons_succ, List.getD_cons_zero]
        rw [ih (fun i => p (i + 1))]

/-- `annotateTok` never changes the token's surface text. -/
theorem annotateTok_text (sj ob : Option Nat) (i : Nat) (t : Token) :
    (Quenya.annotateTok sj ob i t).text = t.text := by
  unfold Quenya.annotateTok
  split_ifs <;> rfl

/-- The annotated list of the Quenya syntax mapper keeps the original surface
texts in the original order. -/
theorem annotated_text (toks : List Token) :
    (Quenya.annotated toks).map Token.text = toks.map Token.text := by
  simp only [Quenya.annotated]
  generalize (Quenya.scanRoles toks).subj = sj
  generalize (Quenya.scanRoles toks).obj = ob
  suffices h : ∀ i, ((pyEnum i toks).map
      (fun q => Quenya.annotateTok sj ob q.1 q.2)).map Token.text = toks.map Token.text from h 0
  induction toks with
  | nil => intro i; rfl
  | cons t ts ih =>
    intro i
    simp only [pyEnum, List.map_cons]
    rw [annotateTok_text, ih (i + 1)]

/-- `stepSin` never changes the token's surface text. -/
theorem stepSin_text (b : Bool) (t : Token) : (Sindarin.stepSin b t).1.text = t.text := by
  unfold Sindarin.stepSin
  split_ifs <;> rfl

/-- The Sindarin syntax mapper keeps the original surface texts in the
original order, for any carried determiner flag. -/
theorem sindarin_synAux_text (toks : List Token) :
    ∀ b, (Sindarin.synAux b toks).map Token.text = toks.map Token.text := by
  induction toks with
  | nil => intro b; rfl
  | cons t ts ih =>
    intro b
    simp only [Sindarin.synAux, List.map_cons]
    rw [stepSin_text, ih]

/-- C6: when the role scan finds a subject, verb, and object, the Quenya
(SOV) mapper emits the annotated subject, object, and verb, followed by the
remaining annotated tokens in their original relative order; when any of the
three is missing it returns the annotated tokens in the original order; and
the Sindarin (SVO) mapper always preserves the input order. -/
theorem c6_reorder :
    (∀ (toks : List Token) (s v o : Nat),
      Quenya.scanRoles toks = ⟨some s, some v, some o⟩ →
      Quenya.synMap toks =
        [(Quenya.annotated toks).getD s tokDflt, (Quenya.annotated toks).getD o tokDflt,
          (Quenya.annotated toks).getD v tokDflt] ++
        ((pyEnum 0 (Quenya.annotated toks)).filter
            (fun q => !(q.1 == s || q.1 == o || q.1 == v))).map Prod.snd) ∧
    (∀ toks : List Token,
      (Quenya.scanRoles toks).subj = none ∨ (Quenya.scanRoles toks).verb = none ∨
        (Quenya.scanRoles toks).obj = none →
      Quenya.synMap toks = Quenya.annotated toks ∧
      (Quenya.annotated toks).map Token.text = toks.map Token.text) ∧
    (∀ toks : List Token, (Sindarin.synMap toks).map Token.text = toks.map Token.text) := by
  refine ⟨?_, ?_, ?_⟩
  · intro toks s v o hr
    simp only [Quenya.synMap, hr]
    rw [range_filter_getD]
  · intro toks h
    have htext := annotated_text toks
    rcases hr : Quenya.scanRoles toks with ⟨os, ov, oo⟩
    rw [hr] at h
    cases os with
    | none => exact ⟨by simp [Quenya.synMap, hr], htext⟩
    | some s =>
      cases ov with
      | none => exact ⟨by simp [Quenya.synMap, hr], htext⟩
      | some v =>
        cases oo with
        | none => exact ⟨by simp [Quenya.synMap, hr], htext⟩
        | some o => rcases h with h | h | h <;> simp at h
  · intro toks
    exact sindarin_synAux_text toks false

/-- C6 witness: the SOV reorder on a PRON/VERB/NOUN sequence, with the scan
hypothesis discharged concretely. -/
theorem c6_reorder_witness :
    Quenya.synMap exC6toks =
      [(Quenya.annotated exC6toks).getD 0 tokDflt, (Quenya.annotated exC6toks).getD 2 tokDflt,
        (Quenya.annotated exC6toks).getD 1 tokDflt] ++
      ((pyEnum 0 (Quenya.annotated exC6toks)).filter
          (fun q => !(q.1 == 0 || q.1 == 2 || q.1 == 1))).map Prod.snd :=
  c6_reorder.1 exC6toks 0 1 2 (by decide)

/-! ## Claim C3 -/

/-- `find?` over an append: the left list is searched first. -/
theorem find?_append_eq {α : Type} (p : α → Bool) (l₁ l₂ : List α) :
    (l₁ ++ l₂).find? p =
      match l₁.find? p with
      | some x => some x
      | none => l₂.find? p := by
  induction l₁ with
  | nil => rfl
  | cons a l ih =>
    by_cases h : p a = true <;> simp [List.find?, h, ih]

/-- `pyEnum` over an append. -/
theorem pyEnum_append {α : Type} (l₁ l₂ : List α) :
    ∀ i, pyEnum i (l₁ ++ l₂) = pyEnum i l₁ ++ pyEnum (i + l₁.length) l₂ := by
  induction l₁ with
  | nil => intro i; simp [pyEnum]
  | cons a l ih =>
    intro i
    simp only [List.cons_append, pyEnum, List.length_cons, List.append_eq, ih (i + 1)]
    have e : i + 1 + l.length = i + (l.length + 1) := by omega
    rw [e]

/-- Every index produced by `pyEnum i l` is below `i + l.length`. -/
theorem pyEnum_fst_lt {α : Type} (l : List α) :
    ∀ i (q : Nat × α), q ∈ pyEnum i l → q.1 < i + l.length := by
  induction l with
  | nil => intro i q h; simp [pyEnum] at h
  | cons a l ih =>
    intro i q h
    simp only [pyEnum, List.mem_cons] at h
    rcases h with rfl | h
    · simp only [List.length_cons]; omega
    · have := ih (i + 1) q h
      simp only [List.length_cons]
      omega

/-- The value component of a `pyEnum` member is a member of the list. -/
theorem pyEnum_mem_snd {α : Type} {l : List α} :
    ∀ {i : Nat} {q : Nat × α}, q ∈ pyEnum i l → q.2 ∈ l := by
  induction l with
  | nil => intro i q h; simp [pyEnum] at h
  | cons a l ih =>
    intro i q h
    simp only [pyEnum, List.mem_cons] at h
    rcases h with rfl | h
    · simp
    · exact List.mem_cons_of_mem a (ih h)

/-- Every member of the list appears, with some index, in `pyEnum i l`. -/
theorem mem_pyEnum_of_mem {α : Type} {x : α} {l : List α} (h : x ∈ l) :
    ∀ i, ∃ j, (j, x) ∈ pyEnum i l := by
  induction l with
  | nil => simp at h
  | cons a l ih =>
    intro i
    rcases List.mem_cons.1 h with rfl | h'
    · exact ⟨i, by simp [pyEnum]⟩
    · obtain ⟨j, hj⟩ := ih h' (i + 1)
      exact ⟨j, by simp [pyEnum, hj]⟩

/-- `getLast?` returns a member of the list. -/
theorem getLast?_mem' {α : Type} : ∀ {l : List α} {a : α}, l.getLast? = some a → a ∈ l := by
  intro l
  induction l with
  | nil => intro a h; simp at h
  | cons x xs ih =>
    intro a h
    cases xs with
    | nil =>
      simp only [List.getLast?_singleton, Option.some.injEq] at h
      simp [h]
    | cons y ys =>
      rw [List.getLast?_cons_cons] at h
      exact List.mem_cons_of_mem x (ih h)

/-- A found first index is in range. -/
theorem idxFirst_lt {p : Token → Bool} {l : List Token} {j : Nat}
    (h : idxFirst p l = some j) : j < l.length := by
  unfold idxFirst at h
  rw [Option.map_eq_some'] at h
  obtain ⟨q, hq, hj⟩ := h
  have := pyEnum_fst_lt l 0 q (List.mem_of_find?_eq_some hq)
  omega

/-- A found last index is in range. -/
theorem idxLast_lt {p : Token → Bool} {l : List Token} {j : Nat}
    (h : idxLast p l = some j) : j < l.length := by
  unfold idxLast at h
  have hj := getLast?_mem' h
  rw [List.mem_map] at hj
  obtain ⟨q, hq, hj⟩ := hj
  have hq' := List.mem_of_mem_filter hq
  have := pyEnum_fst_lt l 0 q hq'
  omega

/-- `idxFirst` misses exactly when no element satisfies the predicate. -/
theorem idxFirst_none_all (p : Token → Bool) (l : List Token) :
    idxFirst p l = none ↔ ∀ x ∈ l, p x = false := by
  unfold idxFirst
  rw [Option.map_eq_none', List.find?_eq_none]
  constructor
  · intro h x hx
    obtain ⟨j, hj⟩ := mem_pyEnum_of_mem hx 0
    have := h (j, x) hj
    simpa using this
  · intro h q hq
    have := h q.2 (pyEnum_mem_snd hq)
    simpa using this

/-- `idxLast` misses exactly when no element satisfies the predicate. -/
theorem idxLast_none_all (p : Token → Bool) (l : List Token) :
    idxLast p l = none ↔ ∀ x ∈ l, p x = false := by
  unfold idxLast
  constructor
  · intro h x hx
    by_contra hpx
    rw [Bool.not_eq_false] at hpx
    obtain ⟨j, hj⟩ := mem_pyEnum_of_mem hx 0
    have hmem : (j, x) ∈ (pyEnum 0 l).filter (fun q => p q.2) := by
      rw [List.mem_filter]
      exact ⟨hj, hpx⟩
    have : ((pyEnum 0 l).filter (fun q => p q.2)).map Prod.fst ≠ [] := by
      intro he
      rw [List.map_eq_nil_iff] at he
      rw [he] at hmem
      simp at hmem
    rw [← List.getLast?_isSome] at this
    rw [h] at this
    simp at this
  · intro h
    have : (pyEnum 0 l).filter (fun q => p q.2) = [] := by
      rw [List.filter_eq_nil_iff]
      intro q hq
      rw [h q.2 (pyEnum_mem_snd hq)]
      simp
    rw [this]
    rfl

/-- Appending one token changes the first matching index only when the
original list had none. -/
theorem idxFirst_concat (p : Token → Bool) (l : List Token) (t : Token) :
    idxFirst p (l ++ [t]) =
      match idxFirst p l with
      | some j => some j
      | none => if p t then some l.length else none := by
  unfold idxFirst
  rw [pyEnum_append, find?_append_eq]
  simp only [Nat.zero_add]
  cases hf : (pyEnum 0 l).find? (fun q => p q.2) with
  | some q => simp
  | none =>
    by_cases ht : p t = true <;> simp [pyEnum, List.find?, ht]

/-- Appending one token overrides the last matching index when it matches. -/
theorem idxLast_concat (p : Token → Bool) (l : List Token) (t : Token) :
    idxLast p (l ++ [t]) = if p t then some l.length else idxLast p l := by
  unfold idxLast
  rw [pyEnum_append, List.filter_append, List.map_append]
  simp only [Nat.zero_add]
  by_cases ht : p t = true
  · simp [pyEnum, List.filter_cons, ht, List.getLast?_concat]
  · simp [pyEnum, List.filter_cons, ht]

/-- Concat step of the subject specification, phrased with the same guard as
the source's first `if`. -/
theorem subjRoleSpec_concat (l : List Token) (t : Token) :
    subjRoleSpec (l ++ [t]) =
      if isPronTok t || (isNounTok t && (subjRoleSpec l).isNone) then some l.length
      else subjRoleSpec l := by
  unfold subjRoleSpec
  rw [idxLast_concat, idxFirst_concat]
  by_cases hp : isPronTok t = true
  · simp [hp]
  · simp only [hp, if_false, Bool.false_or, Bool.false_eq_true]
    cases hlast : idxLast isPronTok l with
    | some i => simp
    | none =>
      cases hfirst : idxFirst isNounTok l with
      | some j => simp
      | none =>
        by_cases hn : isNounTok t = true <;> simp [hn]

/-- Concat step of the verb specification. -/
theorem verbRoleSpec_concat (l : List Token) (t : Token) :
    verbRoleSpec (l ++ [t]) = if isVerbTok t then some l.length else verbRoleSpec l :=
  idxLast_concat isVerbTok l t

/-- When no pronoun-or-noun occurs, no object is selected. -/
theorem objRoleSpec_none_of {l : List Token}
    (hf : idxFirst isPronOrNounTok l = none) : objRoleSpec l = none := by
  have hall := (idxFirst_none_all _ _).1 hf
  unfold objRoleSpec
  have hempty : (pyEnum 0 l).filter
      (fun q => isNounTok q.2 && !(some q.1 == idxFirst isPronOrNounTok l)) = [] := by
    rw [List.filter_eq_nil_iff]
    intro q hq
    have h1 := hall q.2 (pyEnum_mem_snd hq)
    have h2 : isNounTok q.2 = false := by
      simp only [isPronOrNounTok, Bool.or_eq_false_iff] at h1
      exact h1.2
    simp [h2]
  rw [hempty]
  rfl

/-- The subject specification misses exactly when the first pronoun-or-noun
search misses. -/
theorem subjRoleSpec_none_iff (l : List Token) :
    subjRoleSpec l = none ↔ idxFirst isPronOrNounTok l = none := by
  unfold subjRoleSpec
  rw [idxFirst_none_all]
  constructor
  · intro h
    cases hlast : idxLast isPronTok l with
    | some i => rw [hlast] at h; simp at h
    | none =>
      rw [hlast] at h
      have hpron := (idxLast_none_all _ _).1 hlast
      have hnoun := (idxFirst_none_all _ _).1 h
      intro x hx
      simp [isPronOrNounTok, hpron x hx, hnoun x hx]
  · intro h
    have hpron : ∀ x ∈ l, isPronTok x = false := by
      intro x hx
      have := h x hx
      simp only [isPronOrNounTok, Bool.or_eq_false_iff] at this
      exact this.1
    have hnoun : ∀ x ∈ l, isNounTok x = false := by
      intro x hx
      have := h x hx
      simp only [isPronOrNounTok, Bool.or_eq_false_iff] at this
      exact this.2
    rw [(idxLast_none_all _ _).2 hpron, (idxFirst_none_all _ _).2 hnoun]

/-- A selected subject index is in range. -/
theorem subjRoleSpec_lt {l : List Token} {s : Nat} (h : subjRoleSpec l = some s) :
    s < l.length := by
  unfold subjRoleSpec at h
  cases hlast : idxLast isPronTok l with
  | some i =>
    rw [hlast] at h
    simp only [Option.some.injEq] at h
    rw [← h]
    exact idxLast_lt hlast
  | none =>
    rw [hlast] at h
    exact idxFirst_lt h

/-- Concat step of the object specification: with at least one pronoun-or-noun
already present, an appended noun always becomes the object; with none, the
appended token never does. -/
theorem objRoleSpec_concat (l : List Token) (t : Token) :
    objRoleSpec (l ++ [t]) =
      match idxFirst isPronOrNounTok l with
      | some _ => if isNounTok t then some l.length else objRoleSpec l
      | none => none := by
  cases hf : idxFirst isPronOrNounTok l with
  | some f0 =>
    have hf0lt : f0 < l.length := idxFirst_lt hf
    have hfnew : idxFirst isPronOrNounTok (l ++ [t]) = some f0 := by
      rw [idxFirst_concat, hf]
    unfold objRoleSpec
    rw [hfnew, hf, pyEnum_append, List.filter_append, List.map_append]
    simp only [Nat.zero_add]
    by_cases ht : isNounTok t = true
    · have hne : ((some l.length : Option Nat) == some f0) = false := by
        rw [beq_eq_false_iff_ne]
        intro he
        simp only [Option.some.injEq] at he
        omega
      simp only [ht, if_true]
      simp only [pyEnum, List.filter_cons, List.filter_nil, ht, hne, Bool.true_and,
        Bool.not_false, if_true, List.map_cons, List.map_nil]
      exact List.getLast?_concat _
    · simp [pyEnum, List.filter_cons, ht]
  | none =>
    have hall := (idxFirst_none_all _ _).1 hf
    unfold objRoleSpec
    rw [pyEnum_append, List.filter_append, List.map_append]
    simp only [Nat.zero_add]
    have hempty : (pyEnum 0 l).filter
        (fun q => isNounTok q.2 && !(some q.1 == idxFirst isPronOrNounTok (l ++ [t]))) = [] := by
      rw [List.filter_eq_nil_iff]
      intro q hq
      have h1 := hall q.2 (pyEnum_mem_snd hq)
      have h2 : isNounTok q.2 = false := by
        simp only [isPronOrNounTok, Bool.or_eq_false_iff] at h1
        exact h1.2
      simp [h2]
    rw [hempty]
    by_cases ht : isNounTok t = true
    · have hfnew : idxFirst isPronOrNounTok (l ++ [t]) = some l.length := by
        rw [idxFirst_concat, hf]
        simp [isPronOrNounTok, ht]
      rw [hfnew]
      simp [pyEnum, List.filter_cons, ht]
    · simp [pyEnum, List.filter_cons, ht]

/-- The role scan over an append processes the appended token last. -/
theorem scanAux_append (l : List Token) (t : Token) :
    ∀ (i : Nat) (st : Quenya.Roles),
      Quenya.scanAux i st (l ++ [t]) = Quenya.stepRole (i + l.length) t (Quenya.scanAux i st l) := by
  induction l with
  | nil => intro i st; simp [Quenya.scanAux]
  | cons a l ih =>
    intro i st
    simp only [List.cons_append, List.append_eq, Quenya.scanAux, ih (i + 1), List.length_cons]
    have e : i + 1 + l.length = i + (l.length + 1) := by omega
    rw [e]

/-- C3 counterexample: with two verb tokens, the role scan assigns the verb
role to the *last* verb (index 1), not the first (index 0) as claimed. -/
theorem c3_counterexample :
    (Quenya.scanRoles [⟨"sees", some "sees", some "VERB", some [], "en"⟩,
        ⟨"loves", some "loves", some "VERB", some [], "en"⟩]).verb = some 1 ∧
    idxFirst isVerbTok [⟨"sees", some "sees", some "VERB", some [], "en"⟩,
        ⟨"loves", some "loves", some "VERB", some [], "en"⟩] = some 0 ∧
    (some 1 : Option Nat) ≠ some 0 := by
  refine ⟨by decide, by decide, by decide⟩

/-- C3 amended: the Quenya role scan assigns the subject role to the last
pronoun token when a pronoun occurs and otherwise to the first noun token;
the verb role to the last verb token; and the object role to the last noun
token other than the first pronoun-or-noun token.  Later pronoun, verb, and
noun candidates overwrite earlier ones rather than being ignored; only a
noun's claim on the subject role is first-match. -/
theorem c3_roles_amended (toks : List Token) :
    Quenya.scanRoles toks = ⟨subjRoleSpec toks, verbRoleSpec toks, objRoleSpec toks⟩ := by
  induction toks using List.reverseRecOn with
  | nil => rfl
  | append_singleton l t ih =>
    have hstep : Quenya.scanRoles (l ++ [t]) =
        Quenya.stepRole l.length t (Quenya.scanRoles l) := by
      unfold Quenya.scanRoles
      rw [scanAux_append]
      simp only [Nat.zero_add]
    rw [hstep, ih, subjRoleSpec_concat, verbRoleSpec_concat, objRoleSpec_concat]
    by_cases hP : (t.pos == some "PRON") = true
    · have hpos : t.pos = some "PRON" := beq_iff_eq.1 hP
      have hN : (t.pos == some "NOUN") = false := by rw [hpos]; decide
      have hV : (t.pos == some "VERB") = false := by rw [hpos]; decide
      have hP' : isPronTok t = true := hP
      have hN' : isNounTok t = false := hN
      have hV' : isVerbTok t = false := hV
      cases hf : idxFirst isPronOrNounTok l with
      | some f0 => simp [Quenya.stepRole, hP, hN, hV, hP', hN', hV']
      | none =>
        rw [objRoleSpec_none_of hf]
        simp [Quenya.stepRole, hP, hN, hV, hP', hN', hV']
    · have hPf : (t.pos == some "PRON") = false := by
        revert hP
        cases t.pos == some "PRON" <;> simp
      have hP' : isPronTok t = false := hPf
      by_cases hN : (t.pos == some "NOUN") = true
      · have hpos : t.pos = some "NOUN" := beq_iff_eq.1 hN
        have hV : (t.pos == some "VERB") = false := by rw [hpos]; decide
        have hN' : isNounTok t = true := hN
        have hV' : isVerbTok t = false := hV
        cases hS : subjRoleSpec l with
        | some s =>
          have hslt : s < l.length := subjRoleSpec_lt hS
          have hne : ((some l.length : Option Nat) == some s) = false := by
            rw [beq_eq_false_iff_ne]
            intro he
            simp only [Option.some.injEq] at he
            omega
          cases hf : idxFirst isPronOrNounTok l with
          | some f0 =>
            simp [Quenya.stepRole, hPf, hN, hV, hP', hN', hV', hne]
          | none =>
            exfalso
            rw [(subjRoleSpec_none_iff l).2 hf] at hS
            simp at hS
        | none =>
          have hf : idxFirst isPronOrNounTok l = none := (subjRoleSpec_none_iff l).1 hS
          rw [objRoleSpec_none_of hf]
          simp [Quenya.stepRole, hPf, hN, hV, hP', hN', hV', hS, hf]
      · have hNf : (t.pos == some "NOUN") = false := by
          revert hN
          cases t.pos == some "NOUN" <;> simp
        have hN' : isNounTok t = false := hNf
        by_cases hV : (t.pos == some "VERB") = true
        · have hV' : isVerbTok t = true := hV
          cases hf : idxFirst isPronOrNounTok l with
          | some f0 => simp [Quenya.stepRole, hPf, hNf, hV, hP', hN', hV']
          | none =>
            rw [objRoleSpec_none_of hf]
            simp [Quenya.stepRole, hPf, hNf, hV, hP', hN', hV']
        · have hVf : (t.pos == some "VERB") = false := by
            revert hV
            cases t.pos == some "VERB" <;> simp
          have hV' : isVerbTok t = false := hVf
          cases hf : idxFirst isPronOrNounTok l with
          | some f0 => simp [Quenya.stepRole, hPf, hNf, hVf, hP', hN', hV']
          | none =>
            rw [objRoleSpec_none_of hf]
            simp [Quenya.stepRole, hPf, hNf, hVf, hP', hN', hV']
